import Mathlib

/-!
Verification development for the portfolio-optimizer pipeline in
`src/full_app.py`.

The pipeline stages (cleaning, normalization, composite scoring, selection,
returns analysis, portfolio optimization) are shallowly embedded over exact
rational arithmetic (`ℚ`).  Python floats are modelled as rationals, pandas
missing values (`NaN` cells) as `Option ℚ` with `none` for a missing entry,
and DataFrame columns as Lean lists.  Each definition below is translated
from the named function of `src/full_app.py`; the line numbers in the
comments refer to that file.
-/

/-! ### Cleaner: `clean_data` (src/full_app.py lines 86-114)

A row is a list of cells for the numeric, non-preserved columns (the
identifier columns named in `preserve_columns` are never inspected by the
cleaning loop, so they are not part of the model).  A cell is `none` when
the value is missing.  For each column to clean, the code counts the rows
whose value in that column is negative and the rows whose value is missing
(recorded in the `removed_rows` dict only when the count is positive; the
dict keys `Negative values in {col}` / `Missing values in {col}` are
distinct per column and kind, so the dict is modelled as the list of its
values in insertion order) and then drops exactly those rows before moving
to the next column.  A pandas comparison `NaN < 0` is `False`, so a missing
cell is never counted as negative. -/

abbrev RowQ := List (Option ℚ)

def getCell (r : RowQ) (c : ℕ) : Option ℚ := r.getD c none

def negCell (c : ℕ) (r : RowQ) : Bool :=
  match getCell r c with
  | some v => decide (v < 0)
  | none => false

def nullCell (c : ℕ) (r : RowQ) : Bool := (getCell r c).isNone

def keepCell (c : ℕ) (r : RowQ) : Bool := !negCell c r && !nullCell c r

def cleanStep (c : ℕ) (rows : List RowQ) : List RowQ × List ℕ :=
  let nc := rows.countP (negCell c)
  let mc := rows.countP (nullCell c)
  (rows.filter (keepCell c),
    (if 0 < nc then [nc] else []) ++ (if 0 < mc then [mc] else []))

def clean_data : List ℕ → List RowQ → List RowQ × List ℕ
  | [], rows => (rows, [])
  | c :: cs, rows =>
      let s1 := cleanStep c rows
      let s2 := clean_data cs s1.1
      (s2.1, s1.2 ++ s2.2)

/-- `cleaning_stats['total_removed']` (line 112): initial row count minus
final row count. -/
def total_removed (cols : List ℕ) (rows : List RowQ) : ℕ :=
  rows.length - (clean_data cols rows).1.length

lemma countP_three_way (c : ℕ) (rows : List RowQ) :
    rows.countP (keepCell c) + rows.countP (negCell c) + rows.countP (nullCell c)
      = rows.length := by
  induction rows with
  | nil => simp
  | cons r rs ih =>
      simp only [List.countP_cons, List.length_cons]
      rcases h : getCell r c with _ | v
      · simp [keepCell, negCell, nullCell, h]
        omega
      · by_cases hv : v < 0
        · have hd : decide (v < 0) = true := decide_eq_true hv
          simp [keepCell, negCell, nullCell, h, hd]
          omega
        · have hd : decide (v < 0) = false := decide_eq_false hv
          simp [keepCell, negCell, nullCell, h, hd]
          omega

lemma cleanStep_length (c : ℕ) (rows : List RowQ) :
    (cleanStep c rows).1.length + (cleanStep c rows).2.sum = rows.length := by
  have h3 := countP_three_way c rows
  show (rows.filter (keepCell c)).length +
      ((if 0 < rows.countP (negCell c) then [rows.countP (negCell c)] else []) ++
        (if 0 < rows.countP (nullCell c) then [rows.countP (nullCell c)] else [])).sum
      = rows.length
  rw [List.sum_append, ← List.countP_eq_length_filter]
  by_cases hn : 0 < rows.countP (negCell c) <;>
    by_cases hm : 0 < rows.countP (nullCell c) <;>
      simp only [hn, hm, if_true, if_false, ite_true, ite_false, List.sum_cons,
        List.sum_nil] <;> omega

lemma clean_data_length (cols : List ℕ) :
    ∀ rows : List RowQ,
      (clean_data cols rows).1.length + (clean_data cols rows).2.sum = rows.length := by
  induction cols with
  | nil => intro rows; simp [clean_data]
  | cons c cs ih =>
      intro rows
      have h1 := cleanStep_length c rows
      have h2 := ih (cleanStep c rows).1
      simp only [clean_data, List.sum_append]
      omega

/-- Scenario table from the spec: 100 rows over two numeric columns; rows
0-9 carry a negative value in column 0, rows 10-14 a missing value in
column 1, all other cells are valid. -/
def scenarioTable : List RowQ :=
  (List.range 100).map (fun i =>
    if i < 10 then [some (-1 : ℚ), some 1]
    else if i < 15 then [some (1 : ℚ), none]
    else [some (1 : ℚ), some 1])

/-- C4: for every input table the cleaning report satisfies
`final_count = initial_count − Σ(reason counts)` (stated additively) and
`total_removed = Σ(reason counts)`; the spec's 100-row scenario with 10
negative rows in one column and 5 disjoint missing rows in another yields
85 final rows and 15 removed; cleaning a table down to zero rows still
returns a report (the function is total and the zero-row outcome is an
ordinary value, not an error). -/
theorem clean_data_report_invariant :
    (∀ (cols : List ℕ) (rows : List RowQ),
        (clean_data cols rows).1.length + (clean_data cols rows).2.sum = rows.length
        ∧ total_removed cols rows = (clean_data cols rows).2.sum)
    ∧ (clean_data [0, 1] scenarioTable).1.length = 85
    ∧ total_removed [0, 1] scenarioTable = 15
    ∧ (clean_data [0, 1] scenarioTable).2 = [10, 5]
    ∧ (clean_data [0] [[some (-1 : ℚ)]]).1.length = 0
    ∧ (clean_data [0] [[some (-1 : ℚ)]]).2 = [1] := by
  refine ⟨fun cols rows => ?_, ?_, ?_, ?_, ?_, ?_⟩
  · have h := clean_data_length cols rows
    refine ⟨h, ?_⟩
    show rows.length - (clean_data cols rows).1.length = (clean_data cols rows).2.sum
    generalize hL : (clean_data cols rows).1.length = L at h ⊢
    generalize hS : (clean_data cols rows).2.sum = S at h ⊢
    omega
  · decide
  · decide
  · decide
  · decide
  · decide

/-! ### Normalizer: `normalize_data` (src/full_app.py lines 116-126)

`normalize_data` loops over the selected columns independently; the model
below is the loop body for a single column, carried by the list of its
values.  If the column is marked for inversion it is first multiplied by
`-1` (line 123); then sklearn's `MinMaxScaler.fit_transform` is applied
with the default feature range `(0, 1)`, i.e. `v' = (v - min) / (max - min)`
where a zero range `max - min` is replaced by `1` (sklearn's
`_handle_zeros_in_scale`, so a constant column maps to all zeros instead of
dividing by zero). -/

def listMin : List ℚ → ℚ
  | [] => 0
  | x :: xs => xs.foldl min x

def listMax : List ℚ → ℚ
  | [] => 0
  | x :: xs => xs.foldl max x

def scaleList (ys : List ℚ) : List ℚ :=
  let m := listMin ys
  let d := if listMax ys - m = 0 then 1 else listMax ys - m
  ys.map (fun v => (v - m) / d)

def normalize_column (invert : Bool) (xs : List ℚ) : List ℚ :=
  scaleList (if invert then xs.map (fun v => -v) else xs)

lemma foldl_min_le_init : ∀ (l : List ℚ) (a : ℚ), l.foldl min a ≤ a := by
  intro l
  induction l with
  | nil => intro a; simp
  | cons x xs ih =>
      intro a
      calc (x :: xs).foldl min a = xs.foldl min (min a x) := rfl
        _ ≤ min a x := ih _
        _ ≤ a := min_le_left _ _

lemma foldl_min_le_mem : ∀ (l : List ℚ) (a b : ℚ), b ∈ l → l.foldl min a ≤ b := by
  intro l
  induction l with
  | nil => intro a b hb; cases hb
  | cons x xs ih =>
      intro a b hb
      rcases List.mem_cons.mp hb with rfl | hb
      · calc (b :: xs).foldl min a = xs.foldl min (min a b) := rfl
          _ ≤ min a b := foldl_min_le_init _ _
          _ ≤ b := min_le_right _ _
      · exact ih (min a x) b hb

lemma foldl_min_mem : ∀ (l : List ℚ) (a : ℚ), l.foldl min a = a ∨ l.foldl min a ∈ l := by
  intro l
  induction l with
  | nil => intro a; left; rfl
  | cons x xs ih =>
      intro a
      rcases ih (min a x) with h | h
      · rcases min_choice a x with hc | hc
        · left; show xs.foldl min (min a x) = a; rw [h, hc]
        · right; show xs.foldl min (min a x) ∈ x :: xs; rw [h, hc]; exact List.mem_cons_self _ _
      · right; exact List.mem_cons_of_mem _ h

lemma init_le_foldl_max : ∀ (l : List ℚ) (a : ℚ), a ≤ l.foldl max a := by
  intro l
  induction l with
  | nil => intro a; simp
  | cons x xs ih =>
      intro a
      calc a ≤ max a x := le_max_left _ _
        _ ≤ xs.foldl max (max a x) := ih _
        _ = (x :: xs).foldl max a := rfl

lemma mem_le_foldl_max : ∀ (l : List ℚ) (a b : ℚ), b ∈ l → b ≤ l.foldl max a := by
  intro l
  induction l with
  | nil => intro a b hb; cases hb
  | cons x xs ih =>
      intro a b hb
      rcases List.mem_cons.mp hb with rfl | hb
      · calc b ≤ max a b := le_max_right _ _
          _ ≤ xs.foldl max (max a b) := init_le_foldl_max _ _
          _ = (b :: xs).foldl max a := rfl
      · exact ih (max a x) b hb

lemma foldl_max_mem : ∀ (l : List ℚ) (a : ℚ), l.foldl max a = a ∨ l.foldl max a ∈ l := by
  intro l
  induction l with
  | nil => intro a; left; rfl
  | cons x xs ih =>
      intro a
      rcases ih (max a x) with h | h
      · rcases max_choice a x with hc | hc
        · left; show xs.foldl max (max a x) = a; rw [h, hc]
        · right; show xs.foldl max (max a x) ∈ x :: xs; rw [h, hc]; exact List.mem_cons_self _ _
      · right; exact List.mem_cons_of_mem _ h

lemma listMin_le {l : List ℚ} {a : ℚ} (h : a ∈ l) : listMin l ≤ a := by
  cases l with
  | nil => cases h
  | cons x xs =>
      rcases List.mem_cons.mp h with rfl | h
      · exact foldl_min_le_init xs a
      · exact foldl_min_le_mem xs x a h

lemma le_listMax {l : List ℚ} {a : ℚ} (h : a ∈ l) : a ≤ listMax l := by
  cases l with
  | nil => cases h
  | cons x xs =>
      rcases List.mem_cons.mp h with rfl | h
      · exact init_le_foldl_max xs a
      · exact mem_le_foldl_max xs x a h

lemma listMin_mem {l : List ℚ} (h : l ≠ []) : listMin l ∈ l := by
  cases l with
  | nil => exact absurd rfl h
  | cons x xs =>
      rcases foldl_min_mem xs x with h1 | h1
      · rw [show listMin (x :: xs) = xs.foldl min x from rfl, h1]; exact List.mem_cons_self _ _
      · exact List.mem_cons_of_mem _ h1

lemma listMax_mem {l : List ℚ} (h : l ≠ []) : listMax l ∈ l := by
  cases l with
  | nil => exact absurd rfl h
  | cons x xs =>
      rcases foldl_max_mem xs x with h1 | h1
      · rw [show listMax (x :: xs) = xs.foldl max x from rfl, h1]; exact List.mem_cons_self _ _
      · exact List.mem_cons_of_mem _ h1

lemma listMin_lt_listMax {l : List ℚ} {a b : ℚ} (ha : a ∈ l) (hb : b ∈ l)
    (hab : a ≠ b) : listMin l < listMax l := by
  rcases lt_trichotomy a b with h | h | h
  · exact lt_of_le_of_lt (listMin_le ha) (lt_of_lt_of_le h (le_listMax hb))
  · exact absurd h hab
  · exact lt_of_le_of_lt (listMin_le hb) (lt_of_lt_of_le h (le_listMax ha))

lemma scaleList_core (ys : List ℚ) (hne : ys ≠ [])
    (a b : ℚ) (ha : a ∈ ys) (hb : b ∈ ys) (hab : a ≠ b) :
    (∀ y ∈ scaleList ys, 0 ≤ y ∧ y ≤ 1) ∧ 0 ∈ scaleList ys ∧ 1 ∈ scaleList ys := by
  have hlt : listMin ys < listMax ys := listMin_lt_listMax ha hb hab
  have hdpos : 0 < listMax ys - listMin ys := by linarith
  have hdne : listMax ys - listMin ys ≠ 0 := ne_of_gt hdpos
  have hform : scaleList ys
      = ys.map (fun v => (v - listMin ys) / (listMax ys - listMin ys)) := by
    simp only [scaleList, if_neg hdne]
  refine ⟨?_, ?_, ?_⟩
  · intro y hy
    rw [hform] at hy
    obtain ⟨v, hv, rfl⟩ := List.mem_map.mp hy
    constructor
    · exact div_nonneg (by linarith [listMin_le hv]) (le_of_lt hdpos)
    · rw [div_le_one hdpos]
      linarith [le_listMax hv]
  · rw [hform]
    refine List.mem_map.mpr ⟨listMin ys, listMin_mem hne, ?_⟩
    rw [sub_self, zero_div]
  · rw [hform]
    refine List.mem_map.mpr ⟨listMax ys, listMax_mem hne, ?_⟩
    rw [div_self hdne]

/-- C7: for every selected column, inversion (when requested) negates the
values first and min-max scaling is applied afterwards; on non-constant
input every normalized value lies in `[0, 1]` and the values `0` and `1`
are both attained (i.e. min of the normalized column is 0 and max is 1);
normalizing `[1,2,3,4,5]` without inversion yields `[0, 0.25, 0.5, 0.75, 1]`. -/
theorem normalize_column_min_max (invert : Bool) (xs : List ℚ)
    (hne : xs ≠ []) (hnc : ∃ a ∈ xs, ∃ b ∈ xs, a ≠ b) :
    ((∀ y ∈ normalize_column invert xs, 0 ≤ y ∧ y ≤ 1)
      ∧ 0 ∈ normalize_column invert xs
      ∧ 1 ∈ normalize_column invert xs)
    ∧ normalize_column false [1, 2, 3, 4, 5] = [0, 1/4, 1/2, 3/4, 1] := by
  obtain ⟨a, ha, b, hb, hab⟩ := hnc
  refine ⟨?_, by norm_num [normalize_column, scaleList, listMin, listMax, min_def, max_def]⟩
  cases invert with
  | false =>
      exact scaleList_core xs hne a b ha hb hab
  | true =>
      have hne2 : xs.map (fun v : ℚ => -v) ≠ [] := by
        intro hcon
        exact hne (List.map_eq_nil_iff.mp hcon)
      exact scaleList_core (xs.map (fun v => -v)) hne2 (-a) (-b)
        (List.mem_map.mpr ⟨a, ha, rfl⟩) (List.mem_map.mpr ⟨b, hb, rfl⟩)
        (fun hcon => hab (neg_inj.mp hcon))

/-- Witness for C7 at the concrete column `[1, 2]` without inversion. -/
theorem normalize_column_min_max_witness :
    0 ∈ normalize_column false [1, 2] ∧ 1 ∈ normalize_column false [1, 2] := by
  have h := normalize_column_min_max false [1, 2] (by decide)
    ⟨1, by decide, 2, by decide, by decide⟩
  exact ⟨h.1.2.1, h.1.2.2⟩

/-- C8: normalizing a constant column (`max = min`) is well-defined and
never divides by zero: the output is all zeros, with or without inversion
(sklearn replaces a zero range by 1, so each value maps to
`(v - min) / 1 = 0`). -/
lemma scaleList_const (c : ℚ) (ys : List ℚ) (hconst : ∀ u ∈ ys, u = c) :
    scaleList ys = List.replicate ys.length 0 := by
  rw [List.eq_replicate_iff]
  constructor
  · show (ys.map _).length = ys.length
    rw [List.length_map]
  · intro y hy
    obtain ⟨v, hv, rfl⟩ := List.mem_map.mp hy
    have hm : listMin ys ∈ ys := listMin_mem (by intro hcon; rw [hcon] at hv; cases hv)
    have h1 : v = c := hconst v hv
    have h2 : listMin ys = c := hconst _ hm
    show (v - listMin ys) / _ = 0
    rw [h1, h2, sub_self, zero_div]

theorem normalize_column_constant (invert : Bool) (c : ℚ) (xs : List ℚ)
    (hconst : ∀ v ∈ xs, v = c) :
    normalize_column invert xs = List.replicate xs.length 0 := by
  cases invert with
  | false =>
      exact scaleList_const c xs hconst
  | true =>
      show scaleList (xs.map fun v => -v) = List.replicate xs.length 0
      rw [scaleList_const (-c) (xs.map fun v => -v) ?_, List.length_map]
      intro u hu
      obtain ⟨w, hw, rfl⟩ := List.mem_map.mp hu
      rw [hconst w hw]

/-- Witness for C8 at the concrete constant column `[5, 5]` with inversion. -/
theorem normalize_column_constant_witness :
    normalize_column true [5, 5] = List.replicate 2 0 :=
  normalize_column_constant true 5 [5, 5] (by decide)

/-! ### Selector, bucket assignment (src/full_app.py lines 374-381)

`pd.cut` with bins `[-inf, 29182.71, 89123.03, inf]` and default
`right=True` assigns right-closed intervals: `(-inf, 29182.71]` is
Small-Cap, `(29182.71, 89123.03]` is Mid-Cap and `(89123.03, inf)` is
Large-Cap.  The market capitalization is one of the `preserve_columns`
exempt from cleaning; its value is modelled as a rational. -/

inductive CapBucket where
  | Small : CapBucket
  | Mid : CapBucket
  | Large : CapBucket
deriving DecidableEq

def marketCapBucket (v : ℚ) : CapBucket :=
  if v ≤ 2918271/100 then CapBucket.Small
  else if v ≤ 8912303/100 then CapBucket.Mid
  else CapBucket.Large

/-- C6: bucket assignment is a total function into `{Small, Mid, Large}`
(hence every asset receives exactly one bucket), and the buckets are
characterized exactly by the fixed thresholds: `v ≤ 29182.71` iff Small
(no lower bound, i.e. `-inf` is the lower end), `29182.71 < v ≤ 89123.03`
iff Mid, and `89123.03 < v` iff Large — so the three buckets partition ℚ
without overlap. -/
theorem marketCapBucket_partition (v : ℚ) :
    (marketCapBucket v = CapBucket.Small ↔ v ≤ 2918271/100)
    ∧ (marketCapBucket v = CapBucket.Mid ↔ 2918271/100 < v ∧ v ≤ 8912303/100)
    ∧ (marketCapBucket v = CapBucket.Large ↔ 8912303/100 < v) := by
  unfold marketCapBucket
  by_cases h1 : v ≤ 2918271/100
  · rw [if_pos h1]
    refine ⟨⟨fun _ => h1, fun _ => rfl⟩, ⟨fun hcon => ?_, fun hcon => ?_⟩,
      ⟨fun hcon => ?_, fun hcon => ?_⟩⟩
    · cases hcon
    · linarith [hcon.1]
    · cases hcon
    · linarith
  · rw [if_neg h1]
    push_neg at h1
    by_cases h2 : v ≤ 8912303/100
    · rw [if_pos h2]
      refine ⟨⟨fun hcon => ?_, fun hcon => ?_⟩, ⟨fun _ => ⟨h1, h2⟩, fun _ => rfl⟩,
        ⟨fun hcon => ?_, fun hcon => ?_⟩⟩
      · cases hcon
      · linarith
      · cases hcon
      · linarith
    · rw [if_neg h2]
      push_neg at h2
      refine ⟨⟨fun hcon => ?_, fun hcon => ?_⟩, ⟨fun hcon => ?_, fun hcon => ?_⟩,
        ⟨fun _ => h2, fun _ => rfl⟩⟩
      · cases hcon
      · linarith
      · cases hcon
      · linarith [hcon.2]

/-! ### ScoreEngine rank: `handle_composite_score` (src/full_app.py lines 315-319)

Line 318 is `df['Rank'] = df['Composite Score'].rank(ascending=False)`.
`pandas.Series.rank` with its default `method='average'` sorts the values
(descending here), assigns the 1-based positions `1..n`, and gives every
member of a group of tied values the mean of the positions the group
occupies.  `posSum s k l` sums the positions (counted from `k`) at which
the value `s` occurs in `l`; the rank of `s` is that sum over the
descending-sorted list, divided by the number of occurrences of `s`
(the tie-group size). -/

def sortDesc (l : List ℚ) : List ℚ := l.insertionSort (· ≥ ·)

def posSum (s : ℚ) : ℚ → List ℚ → ℚ
  | _, [] => 0
  | k, x :: xs => (if x = s then k else 0) + posSum s (k + 1) xs

def countEq (l : List ℚ) (s : ℚ) : ℕ := l.countP (fun x => decide (x = s))

def countGt (l : List ℚ) (s : ℚ) : ℕ := l.countP (fun x => decide (s < x))

def rankOf (l : List ℚ) (s : ℚ) : ℚ := posSum s 1 (sortDesc l) / (countEq l s : ℚ)

def rank_series (l : List ℚ) : List ℚ := l.map (rankOf l)

lemma posSum_of_countEq_zero (s : ℚ) :
    ∀ (l : List ℚ), countEq l s = 0 → ∀ k : ℚ, posSum s k l = 0 := by
  intro l
  induction l with
  | nil => intro _ k; rfl
  | cons x xs ih =>
      intro h k
      simp only [countEq, List.countP_cons] at h
      have hx : ¬ x = s := by
        intro hc
        rw [hc] at h
        simp at h
      have hxs : countEq xs s = 0 := by
        simp only [countEq]
        omega
      show (if x = s then k else 0) + posSum s (k + 1) xs = 0
      rw [if_neg hx, ih hxs (k + 1), add_zero]

lemma posSum_sorted (s : ℚ) :
    ∀ (l : List ℚ), List.Sorted (· ≥ ·) l → ∀ k : ℚ,
      posSum s k l = (countEq l s : ℚ) * (k + (countGt l s : ℚ))
        + (countEq l s : ℚ) * ((countEq l s : ℚ) - 1) / 2 := by
  intro l
  induction l with
  | nil => intro _ k; simp [posSum, countEq, countGt]
  | cons x xs ih =>
      intro hsort k
      obtain ⟨hx, hxs⟩ := List.sorted_cons.mp hsort
      have hstep : posSum s k (x :: xs) = (if x = s then k else 0) + posSum s (k + 1) xs := rfl
      rcases lt_trichotomy x s with h | h | h
      · -- x < s: since the list is ≥-sorted, no occurrence of s and nothing above s remains
        have hce : countEq (x :: xs) s = 0 := by
          simp only [countEq, List.countP_cons]
          have h1 : decide (x = s) = false := decide_eq_false (by intro hc; rw [hc] at h; exact lt_irrefl s h)
          have h2 : xs.countP (fun y => decide (y = s)) = 0 := by
            refine List.countP_eq_zero.mpr (fun a ha => ?_)
            have : a ≤ x := hx a ha
            simp only [decide_eq_true_eq]
            intro hc
            rw [hc] at this
            linarith
          rw [h1, h2]
          simp
        have hz : posSum s (k + 1) (x :: xs).tail = 0 := by
          refine posSum_of_countEq_zero s xs ?_ (k + 1)
          simp only [countEq, List.countP_cons] at hce
          simp only [countEq]
          omega
        rw [hstep]
        rw [hce]
        have h1 : ¬ x = s := by intro hc; rw [hc] at h; exact lt_irrefl s h
        rw [if_neg h1]
        simp only [List.tail_cons] at hz
        rw [hz]
        push_cast
        ring
      · -- x = s: the tie block starts here; nothing in xs is above s
        subst h
        have hgt : countGt (x :: xs) x = 0 := by
          simp only [countGt, List.countP_cons]
          have h1 : decide (x < x) = false := decide_eq_false (lt_irrefl x)
          have h2 : xs.countP (fun y => decide (x < y)) = 0 := by
            refine List.countP_eq_zero.mpr (fun a ha => ?_)
            have : a ≤ x := hx a ha
            simp only [decide_eq_true_eq]
            intro hc
            linarith
          rw [h1, h2]
          simp
        have hgt_xs : countGt xs x = 0 := by
          simp only [countGt, List.countP_cons] at hgt
          simp only [countGt]
          omega
        have hce : countEq (x :: xs) x = countEq xs x + 1 := by
          simp [countEq, List.countP_cons]
        rw [hstep, if_pos rfl, ih hxs (k + 1), hce, hgt, hgt_xs]
        push_cast
        ring
      · -- x > s: one position above the block is consumed
        have h1 : ¬ x = s := by intro hc; rw [hc] at h; exact lt_irrefl s h
        have hce : countEq (x :: xs) s = countEq xs s := by
          simp [countEq, List.countP_cons, h1]
        have hgt : countGt (x :: xs) s = countGt xs s + 1 := by
          simp [countGt, List.countP_cons, h]
        rw [hstep, if_neg h1, ih hxs (k + 1), hce, hgt]
        push_cast
        ring

lemma rankOf_eq (l : List ℚ) (s : ℚ) (hs : s ∈ l) :
    rankOf l s = (countGt l s : ℚ) + ((countEq l s : ℚ) + 1) / 2 := by
  have hsorted : List.Sorted (· ≥ ·) (sortDesc l) := List.sorted_insertionSort _ l
  have hperm : List.Perm (sortDesc l) l := List.perm_insertionSort _ l
  have hceq : countEq (sortDesc l) s = countEq l s := hperm.countP_eq _
  have hgeq : countGt (sortDesc l) s = countGt l s := hperm.countP_eq _
  have hps := posSum_sorted s (sortDesc l) hsorted 1
  rw [hceq, hgeq] at hps
  have hcpos : 0 < countEq l s := by
    simp only [countEq]
    exact List.countP_pos_iff.mpr ⟨s, hs, by simp⟩
  have hcne : (countEq l s : ℚ) ≠ 0 := Nat.cast_ne_zero.mpr (Nat.pos_iff_ne_zero.mp hcpos)
  unfold rankOf
  rw [hps]
  field_simp
  ring

lemma countGt_le_of_lt {t s : ℚ} (hts : t < s) (l : List ℚ) :
    countGt l s + countEq l s ≤ countGt l t := by
  induction l with
  | nil => simp [countGt, countEq]
  | cons x xs ih =>
      simp only [countGt, countEq, List.countP_cons] at ih ⊢
      by_cases h1 : s < x
      · have h2 : t < x := lt_trans hts h1
        have h3 : ¬ x = s := by intro hc; rw [hc] at h1; exact lt_irrefl s h1
        simp only [h1, h2, h3, decide_eq_true, decide_eq_false, if_true, if_false]
        simp
        omega
      · by_cases h3 : x = s
        · subst h3
          have h2 : t < x := hts
          simp only [h1, h2, decide_eq_true, if_true]
          simp
          omega
        · by_cases h2 : t < x
          · simp only [h1, h2, h3, decide_eq_true, if_true]
            simp
            omega
          · simp only [h1, h2, h3]
            simp
            omega

/-- C3 is false as stated: for the tied score list `[1, 1]` the code's
`rank(ascending=False)` (pandas default `method='average'`) assigns both
rows rank `1.5`, whereas the claim's standard competition ranking would
assign both rows the lowest position of the tie group, `1`. -/
theorem rank_ties_average_counterexample :
    rank_series [1, 1] = [3/2, 3/2] ∧ rankOf [1, 1] 1 = 3/2 ∧ (3/2 : ℚ) ≠ 1 := by
  refine ⟨?_, ?_, by norm_num⟩ <;>
    norm_num [rank_series, rankOf, sortDesc, posSum, countEq,
      List.insertionSort, List.orderedInsert]

/-- C3 (amended): rank is assigned by sorting compositeScore descending;
every member of a tie group receives the same rank, namely the AVERAGE of
the 1-based positions the group occupies (pandas `method='average'`), equal
to `(#strictly greater) + (groupSize + 1)/2` — not the lowest position
number of the group as competition ranking would give; a strictly greater
score still receives a strictly smaller rank, and an untied score's rank is
`(#strictly greater) + 1`, so after a tie group the next distinct score
resumes at its positional rank (rank 1 for an untied largest score). -/
theorem rank_average_method (l : List ℚ) (s t : ℚ) (hs : s ∈ l) (ht : t ∈ l) :
    rankOf l s = (countGt l s : ℚ) + ((countEq l s : ℚ) + 1) / 2
    ∧ (t < s → rankOf l s < rankOf l t)
    ∧ (countEq l s = 1 → rankOf l s = (countGt l s : ℚ) + 1) := by
  refine ⟨rankOf_eq l s hs, ?_, ?_⟩
  · intro hts
    rw [rankOf_eq l s hs, rankOf_eq l t ht]
    have hc := countGt_le_of_lt hts l
    have hcs : 0 < countEq l s := by
      simp only [countEq]
      exact List.countP_pos_iff.mpr ⟨s, hs, by simp⟩
    have hct : 0 < countEq l t := by
      simp only [countEq]
      exact List.countP_pos_iff.mpr ⟨t, ht, by simp⟩
    have hcq : (countGt l s : ℚ) + (countEq l s : ℚ) ≤ (countGt l t : ℚ) := by
      exact_mod_cast hc
    have hcs1 : (1 : ℚ) ≤ (countEq l s : ℚ) := by exact_mod_cast hcs
    have hct1 : (1 : ℚ) ≤ (countEq l t : ℚ) := by exact_mod_cast hct
    linarith
  · intro hone
    rw [rankOf_eq l s hs, hone]
    norm_num

/-- Witness for C3 (amended) at the list `[1, 1, 2]` with scores 2 and 1. -/
theorem rank_average_method_witness :
    rankOf [1, 1, 2] 2 = (countGt [1, 1, 2] 2 : ℚ) + ((countEq [1, 1, 2] 2 : ℚ) + 1) / 2
    ∧ rankOf [1, 1, 2] 2 < rankOf [1, 1, 2] 1 := by
  have h := rank_average_method [1, 1, 2] 2 1 (by decide) (by decide)
  exact ⟨h.1, h.2.1 (by norm_num)⟩

/-! ### Selector cutoff: `handle_stock_selection` (src/full_app.py lines 358-372)

`np.percentile(scores, p, method='linear')` sorts the data ascending and
linearly interpolates at the virtual index `(n - 1) * p / 100`: with
`i = floor(index)` the result is `a[i] + (index - i) * (a[i+1] - a[i])`
(when `i` is the last index the fractional part is zero and the result is
`a[i]`).  Line 372 then keeps exactly the rows whose composite score is
strictly greater than this cutoff. -/

def sortAsc (l : List ℚ) : List ℚ := l.insertionSort (· ≤ ·)

def interpAt (s : List ℚ) (h : ℚ) : ℚ :=
  s.getD (⌊h⌋).toNat 0
    + (h - ((⌊h⌋).toNat : ℚ))
      * (s.getD ((⌊h⌋).toNat + 1) (s.getD (⌊h⌋).toNat 0) - s.getD (⌊h⌋).toNat 0)

def percentileLinear (l : List ℚ) (p : ℚ) : ℚ :=
  if sortAsc l = [] then 0
  else interpAt (sortAsc l) ((((sortAsc l).length - 1 : ℕ) : ℚ) * p / 100)

def selectByPercentile (l : List ℚ) (p : ℚ) : List ℚ :=
  l.filter (fun x => decide (percentileLinear l p < x))

lemma interpAt_bounds (s : List ℚ) (hsorted : List.Sorted (· ≤ ·) s) (hne : s ≠ [])
    (h : ℚ) (h0 : 0 ≤ h) (hle : h ≤ ((s.length - 1 : ℕ) : ℚ)) :
    ∃ u ∈ s, ∃ w ∈ s, u ≤ interpAt s h ∧ interpAt s h ≤ w := by
  have hfl0 : 0 ≤ ⌊h⌋ := Int.floor_nonneg.mpr h0
  have hcasti : (((⌊h⌋).toNat : ℤ)) = ⌊h⌋ := Int.toNat_of_nonneg hfl0
  have hcast : (((⌊h⌋).toNat : ℚ)) = ((⌊h⌋ : ℤ) : ℚ) := by exact_mod_cast hcasti
  have hile : (((⌊h⌋).toNat : ℚ)) ≤ h := by rw [hcast]; exact Int.floor_le h
  have hlt1 : h < (((⌊h⌋).toNat : ℚ)) + 1 := by rw [hcast]; exact_mod_cast Int.lt_floor_add_one h
  have hn1 : 0 < s.length := List.length_pos.mpr hne
  have hin : (⌊h⌋).toNat < s.length := by
    have h1 : (((⌊h⌋).toNat : ℚ)) ≤ ((s.length - 1 : ℕ) : ℚ) := le_trans hile hle
    have h2 : (⌊h⌋).toNat ≤ s.length - 1 := by exact_mod_cast h1
    omega
  have hlo : s.getD (⌊h⌋).toNat 0 = s[(⌊h⌋).toNat] := List.getD_eq_getElem s 0 hin
  have hlo_mem : s[(⌊h⌋).toNat] ∈ s := List.getElem_mem hin
  by_cases hif : (⌊h⌋).toNat + 1 < s.length
  · have hhi : s.getD ((⌊h⌋).toNat + 1) (s.getD (⌊h⌋).toNat 0) = s[(⌊h⌋).toNat + 1] :=
      List.getD_eq_getElem s _ hif
    have hhi_mem : s[(⌊h⌋).toNat + 1] ∈ s := List.getElem_mem hif
    have hmono : s[(⌊h⌋).toNat] ≤ s[(⌊h⌋).toNat + 1] := by
      have hp := List.pairwise_iff_get.mp hsorted ⟨(⌊h⌋).toNat, hin⟩ ⟨(⌊h⌋).toNat + 1, hif⟩
        (by exact Fin.mk_lt_mk.mpr (Nat.lt_succ_self _))
      rw [List.get_eq_getElem, List.get_eq_getElem] at hp
      exact hp
    refine ⟨s[(⌊h⌋).toNat], hlo_mem, s[(⌊h⌋).toNat + 1], hhi_mem, ?_, ?_⟩
    · unfold interpAt
      rw [hhi, hlo]
      have k1 : 0 ≤ (h - (((⌊h⌋).toNat : ℚ))) * (s[(⌊h⌋).toNat + 1] - s[(⌊h⌋).toNat]) :=
        mul_nonneg (by linarith) (by linarith)
      linarith
    · unfold interpAt
      rw [hhi, hlo]
      have k2 : (h - (((⌊h⌋).toNat : ℚ))) * (s[(⌊h⌋).toNat + 1] - s[(⌊h⌋).toNat])
          ≤ 1 * (s[(⌊h⌋).toNat + 1] - s[(⌊h⌋).toNat]) :=
        mul_le_mul_of_nonneg_right (by linarith) (by linarith)
      linarith
  · have hhi : s.getD ((⌊h⌋).toNat + 1) (s.getD (⌊h⌋).toNat 0) = s.getD (⌊h⌋).toNat 0 :=
      List.getD_eq_default s _ (by omega)
    refine ⟨s[(⌊h⌋).toNat], hlo_mem, s[(⌊h⌋).toNat], hlo_mem, ?_, ?_⟩
    · unfold interpAt
      rw [hhi, hlo, sub_self, mul_zero, add_zero]
    · unfold interpAt
      rw [hhi, hlo, sub_self, mul_zero, add_zero]

/-- C5: the selector's cutoff is the linearly interpolated `p`-th percentile
of the composite scores (`np.percentile(..., method='linear')`), and the
selection keeps exactly the rows with score strictly greater than the
cutoff: the selection length equals the count of scores satisfying the
strict predicate, every selected score is strictly above the cutoff, scores
exactly at the cutoff are excluded, and the cutoff itself lies between the
order statistics (between the minimum and maximum score). -/
theorem select_strictly_above_cutoff (l : List ℚ) (p : ℚ)
    (hne : l ≠ []) (hp1 : 1 ≤ p) (hp100 : p ≤ 100) :
    (selectByPercentile l p).length
        = l.countP (fun x => decide (percentileLinear l p < x))
    ∧ (∀ x ∈ selectByPercentile l p, percentileLinear l p < x)
    ∧ (∀ x ∈ l, x = percentileLinear l p → x ∉ selectByPercentile l p)
    ∧ listMin l ≤ percentileLinear l p
    ∧ percentileLinear l p ≤ listMax l := by
  have hperm : List.Perm (sortAsc l) l := List.perm_insertionSort _ l
  have hsorted : List.Sorted (· ≤ ·) (sortAsc l) := List.sorted_insertionSort _ l
  have hsne : sortAsc l ≠ [] := by
    intro hcon
    have hlen := hperm.length_eq
    rw [hcon] at hlen
    simp only [List.length_nil] at hlen
    exact hne (List.eq_nil_of_length_eq_zero hlen.symm)
  have hbounds : listMin l ≤ percentileLinear l p ∧ percentileLinear l p ≤ listMax l := by
    have hn1 : 0 < (sortAsc l).length := List.length_pos.mpr hsne
    have hform : percentileLinear l p
        = interpAt (sortAsc l) ((((sortAsc l).length - 1 : ℕ) : ℚ) * p / 100) := by
      unfold percentileLinear
      rw [if_neg hsne]
    have h0 : 0 ≤ (((sortAsc l).length - 1 : ℕ) : ℚ) * p / 100 := by
      apply div_nonneg _ (by norm_num)
      exact mul_nonneg (Nat.cast_nonneg _) (by linarith)
    have hle : (((sortAsc l).length - 1 : ℕ) : ℚ) * p / 100
        ≤ (((sortAsc l).length - 1 : ℕ) : ℚ) := by
      rw [div_le_iff₀ (by norm_num : (0:ℚ) < 100)]
      exact mul_le_mul_of_nonneg_left hp100 (Nat.cast_nonneg _)
    obtain ⟨u, hu, w, hw, huc, hcw⟩ := interpAt_bounds (sortAsc l) hsorted hsne _ h0 hle
    rw [hform]
    constructor
    · exact le_trans (listMin_le (hperm.mem_iff.mp hu)) huc
    · exact le_trans hcw (le_listMax (hperm.mem_iff.mp hw))
  refine ⟨(List.countP_eq_length_filter _ _).symm, ?_, ?_, hbounds.1, hbounds.2⟩
  · intro x hx
    have hx2 : x ∈ l.filter (fun y => decide (percentileLinear l p < y)) := hx
    have h1 := (List.mem_filter.mp hx2).2
    exact of_decide_eq_true h1
  · intro x _ hxc hmem
    have hm2 : x ∈ l.filter (fun y => decide (percentileLinear l p < y)) := hmem
    have h0 := (List.mem_filter.mp hm2).2
    have h1 : percentileLinear l p < x := of_decide_eq_true h0
    rw [hxc] at h1
    exact lt_irrefl _ h1

/-- Witness for C5 at scores `[1, 2, 3, 4, 5]` with `p = 60` (cutoff 3.4,
two scores strictly above it). -/
theorem select_strictly_above_cutoff_witness :
    (selectByPercentile [1, 2, 3, 4, 5] 60).length
        = List.countP (fun x => decide (percentileLinear [1, 2, 3, 4, 5] 60 < x)) [1, 2, 3, 4, 5]
    ∧ listMin [1, 2, 3, 4, 5] ≤ percentileLinear [1, 2, 3, 4, 5] 60
    ∧ percentileLinear [1, 2, 3, 4, 5] 60 ≤ listMax [1, 2, 3, 4, 5] := by
  have h := select_strictly_above_cutoff [1, 2, 3, 4, 5] 60 (by decide)
    (by norm_num) (by norm_num)
  exact ⟨h.1, h.2.2.2.1, h.2.2.2.2⟩

/-! ### ReturnsAnalyzer: `analyze_trading_days` (src/full_app.py lines 35-67),
covariance annualization (lines 583-584) and mean annualization (lines 647-649)

`returns_data` is a DataFrame with one row per trading day and one column
per asset; `trading_days = len(returns_data)` (line 40) is stored in the
metrics dict as `total_trading_days`.  Line 584 computes
`covariance_matrix = returns_data.cov() * trading_metrics['total_trading_days']`
where pandas `.cov()` is the sample covariance with denominator `n - 1`,
and line 649 computes `mean_returns = returns_data.mean() * trading_days`
with the same stored count.  A complete rectangular return matrix is
modelled (pandas' pairwise NaN exclusion never fires without missing
values). -/

def colAt (returns : List (List ℚ)) (j : ℕ) : List ℚ :=
  returns.map (fun row => row.getD j 0)

def total_trading_days (returns : List (List ℚ)) : ℕ := returns.length

def dailyMean (returns : List (List ℚ)) (j : ℕ) : ℚ :=
  (colAt returns j).sum / (total_trading_days returns : ℚ)

def crossDev (returns : List (List ℚ)) (j k : ℕ) : ℚ :=
  (List.zipWith (fun a b => (a - dailyMean returns j) * (b - dailyMean returns k))
    (colAt returns j) (colAt returns k)).sum

def sampleCov (returns : List (List ℚ)) (j k : ℕ) : ℚ :=
  crossDev returns j k / ((total_trading_days returns : ℚ) - 1)

def covariance_matrix (returns : List (List ℚ)) (j k : ℕ) : ℚ :=
  sampleCov returns j k * (total_trading_days returns : ℚ)

def mean_returns (returns : List (List ℚ)) (j : ℕ) : ℚ :=
  dailyMean returns j * (total_trading_days returns : ℚ)

/-- C9: both annualizations use the observed trading-day count (the number
of rows of the return table), not a fixed 252: the annualized mean return
per asset is the daily mean times that count (equivalently, the sum of the
daily returns), and the annualized covariance is the sample covariance
(denominator `n - 1`) times the same count, so
`cov_annualized * (n - 1) = Σ(dev_j * dev_k) * n`. -/
theorem annualization_uses_observed_days (returns : List (List ℚ)) (j k : ℕ)
    (h : 0 < returns.length) :
    total_trading_days returns = returns.length
    ∧ mean_returns returns j = (colAt returns j).sum
    ∧ mean_returns returns j = dailyMean returns j * (returns.length : ℚ)
    ∧ covariance_matrix returns j k = sampleCov returns j k * (returns.length : ℚ)
    ∧ (2 ≤ returns.length →
        covariance_matrix returns j k * ((returns.length : ℚ) - 1)
          = crossDev returns j k * (returns.length : ℚ)) := by
  have hn : ((returns.length : ℚ)) ≠ 0 := by
    exact_mod_cast Nat.pos_iff_ne_zero.mp h
  refine ⟨rfl, ?_, rfl, rfl, ?_⟩
  · unfold mean_returns dailyMean total_trading_days
    rw [div_mul_cancel₀ _ hn]
  · intro h2
    have hn1 : ((returns.length : ℚ)) - 1 ≠ 0 := by
      have : (2 : ℚ) ≤ (returns.length : ℚ) := by exact_mod_cast h2
      intro hcon
      rw [sub_eq_zero] at hcon
      rw [hcon] at this
      norm_num at this
    unfold covariance_matrix sampleCov total_trading_days
    field_simp

/-- Witness for C9 at a concrete 3-day, 2-asset return table (the realized
count is 3, not 252). -/
theorem annualization_uses_observed_days_witness :
    total_trading_days [[1, 2], [3, 4], [5, 6]] = 3
    ∧ mean_returns [[1, 2], [3, 4], [5, 6]] 0 = (colAt [[1, 2], [3, 4], [5, 6]] 0).sum
    ∧ covariance_matrix [[1, 2], [3, 4], [5, 6]] 0 1 * ((3 : ℚ) - 1)
        = crossDev [[1, 2], [3, 4], [5, 6]] 0 1 * 3 := by
  have h := annualization_uses_observed_days [[1, 2], [3, 4], [5, 6]] 0 1 (by decide)
  exact ⟨h.1, h.2.1, h.2.2.2.2 (by decide)⟩

/-! ### PortfolioOptimizer post-processing (src/full_app.py lines 830-867)

After a successful solve: `optimal_weights = result.x / np.sum(result.x)`
(line 831), `weights_pct = (optimal_weights * 100).round(2)` (line 835,
numpy rounds half to even), then line 837 adds the residual
`100 - weights_pct.sum()` to the entry at `np.argmax(weights_pct)` (the
first index attaining the maximum), and line 855 keeps only the rows with
`'Weight in %' > 0.01` in the reported table. -/

def roundHalfEven (x : ℚ) : ℤ :=
  if x - ⌊x⌋ < 1/2 then ⌊x⌋
  else if 1/2 < x - ⌊x⌋ then ⌊x⌋ + 1
  else if ⌊x⌋ % 2 = 0 then ⌊x⌋ else ⌊x⌋ + 1

/-- numpy `.round(2)`: round to two decimal places, ties to even. -/
def round2 (y : ℚ) : ℚ := ((roundHalfEven (y * 100) : ℤ) : ℚ) / 100

/-- `np.argmax`: index of the first occurrence of the maximum. -/
def argmaxIdx : List ℚ → ℕ
  | [] => 0
  | [_] => 0
  | x :: y :: xs => if listMax (y :: xs) ≤ x then 0 else argmaxIdx (y :: xs) + 1

def weights_pct (raw : List ℚ) : List ℚ :=
  raw.map (fun v => round2 (v / raw.sum * 100))

def weights_pct_adjusted (raw : List ℚ) : List ℚ :=
  (weights_pct raw).set (argmaxIdx (weights_pct raw))
    ((weights_pct raw).getD (argmaxIdx (weights_pct raw)) 0 + (100 - (weights_pct raw).sum))

def portfolio_results_weights (raw : List ℚ) : List ℚ :=
  (weights_pct_adjusted raw).filter (fun v => decide ((1 : ℚ)/100 < v))

lemma roundHalfEven_intCast (n : ℤ) : roundHalfEven ((n : ℚ)) = n := by
  unfold roundHalfEven
  rw [Int.floor_intCast]
  norm_num

lemma round2_eq (y : ℚ) (n : ℤ) (h : y * 100 = (n : ℚ)) : round2 y = (n : ℚ) / 100 := by
  unfold round2
  rw [h, roundHalfEven_intCast]

lemma argmaxIdx_lt_length : ∀ l : List ℚ, l ≠ [] → argmaxIdx l < l.length := by
  intro l
  induction l with
  | nil => intro h; exact absurd rfl h
  | cons x xs ih =>
      intro _
      cases xs with
      | nil => show argmaxIdx [x] < 1; rw [show argmaxIdx [x] = 0 from rfl]; omega
      | cons y ys =>
          show (if listMax (y :: ys) ≤ x then 0 else argmaxIdx (y :: ys) + 1)
            < (x :: y :: ys).length
          by_cases hc : listMax (y :: ys) ≤ x
          · rw [if_pos hc]
            simp
          · rw [if_neg hc]
            have hlen := ih (List.cons_ne_nil y ys)
            simp only [List.length_cons] at hlen ⊢
            omega

lemma sum_set_getD : ∀ (l : List ℚ) (i : ℕ), i < l.length →
    ∀ r : ℚ, (l.set i (l.getD i 0 + r)).sum = l.sum + r := by
  intro l
  induction l with
  | nil => intro i h; simp at h
  | cons x xs ih =>
      intro i h r
      cases i with
      | zero =>
          simp only [List.set_cons_zero, List.getD_cons_zero, List.sum_cons]
          ring
      | succ n =>
          simp only [List.set_cons_succ, List.getD_cons_succ, List.sum_cons]
          have hn : n < xs.length := by
            simp only [List.length_cons] at h
            omega
          rw [ih n hn r]
          ring

lemma filter_split_sum (l : List ℚ) :
    (l.filter (fun v => decide ((1 : ℚ)/100 < v))).sum
      + (l.filter (fun v => decide (v ≤ 1/100))).sum = l.sum := by
  induction l with
  | nil => simp
  | cons x xs ih =>
      rw [List.filter_cons, List.filter_cons]
      simp only [decide_eq_true_eq]
      by_cases h : (1 : ℚ)/100 < x
      · rw [if_pos h, if_neg (not_le.mpr h)]
        simp only [List.sum_cons]
        linarith
      · rw [if_neg h, if_pos (not_lt.mp h)]
        simp only [List.sum_cons]
        linarith

/-- C2 (amended): after the rounding adjustment the full weight vector sums
to exactly 100.00; the subsequent drop of assets whose final weight is
≤ 0.01% removes those rows' weights from the reported table without
re-adding them, so the reported sum equals 100 minus the dropped weights
(and is therefore below 100 whenever any asset is dropped with a positive
rounded weight). -/
theorem weights_pct_adjusted_sum (raw : List ℚ) (hne : raw ≠ []) :
    (weights_pct_adjusted raw).sum = 100
    ∧ (portfolio_results_weights raw).sum
        = 100 - ((weights_pct_adjusted raw).filter (fun v => decide (v ≤ 1/100))).sum := by
  have hpne : weights_pct raw ≠ [] := by
    unfold weights_pct
    intro hcon
    exact hne (List.map_eq_nil_iff.mp hcon)
  have hlt : argmaxIdx (weights_pct raw) < (weights_pct raw).length :=
    argmaxIdx_lt_length _ hpne
  have h1 : (weights_pct_adjusted raw).sum = 100 := by
    unfold weights_pct_adjusted
    rw [sum_set_getD _ _ hlt]
    ring
  refine ⟨h1, ?_⟩
  have h2 := filter_split_sum (weights_pct_adjusted raw)
  unfold portfolio_results_weights
  rw [h1] at h2
  linarith

/-- Witness for C2 (amended) at the one-asset vector `[1]`. -/
theorem weights_pct_adjusted_sum_witness :
    (weights_pct_adjusted [(1 : ℚ)]).sum = 100 :=
  (weights_pct_adjusted_sum [(1 : ℚ)] (by decide)).1

/-- C2 is false as stated: for the successful solve whose normalized
weights are `[0.9998, 0.0001, 0.0001]`, rounding gives
`[99.98, 0.01, 0.01]` (already summing to 100, so the largest entry is
unchanged), and the drop of assets with weight ≤ 0.01% then removes the two
0.01 rows, leaving a reported table whose per-asset weights sum to 99.98,
not 100.00. -/
theorem reported_weights_sum_counterexample :
    portfolio_results_weights [4999/5000, 1/10000, 1/10000] = [9998/100]
    ∧ (portfolio_results_weights [4999/5000, 1/10000, 1/10000]).sum = 9998/100
    ∧ ((9998 : ℚ)/100) ≠ 100 := by
  have hsum : ([4999/5000, 1/10000, 1/10000] : List ℚ).sum = 1 := by
    norm_num [List.sum_cons, List.sum_nil]
  have e1 : round2 ((4999 : ℚ)/5000 / 1 * 100) = ((9998 : ℤ) : ℚ)/100 :=
    round2_eq _ _ (by push_cast; norm_num)
  have e2 : round2 ((1 : ℚ)/10000 / 1 * 100) = ((1 : ℤ) : ℚ)/100 :=
    round2_eq _ _ (by push_cast; norm_num)
  have hpct : weights_pct [4999/5000, 1/10000, 1/10000] = [9998/100, 1/100, 1/100] := by
    unfold weights_pct
    rw [List.map_cons, List.map_cons, List.map_cons, List.map_nil, hsum]
    rw [e1, e2]
    norm_num
  have hargmax : argmaxIdx [(9998 : ℚ)/100, 1/100, 1/100] = 0 := by
    show (if listMax [(1 : ℚ)/100, 1/100] ≤ (9998 : ℚ)/100 then 0
      else argmaxIdx [(1 : ℚ)/100, 1/100] + 1) = 0
    rw [if_pos]
    show listMax [(1 : ℚ)/100, 1/100] ≤ (9998 : ℚ)/100
    show [(1 : ℚ)/100].foldl max ((1 : ℚ)/100) ≤ (9998 : ℚ)/100
    simp only [List.foldl_cons, List.foldl_nil, max_self]
    norm_num
  have hadj : weights_pct_adjusted [4999/5000, 1/10000, 1/10000]
      = [9998/100, 1/100, 1/100] := by
    unfold weights_pct_adjusted
    rw [hpct, hargmax, List.getD_cons_zero, List.set_cons_zero]
    norm_num [List.sum_cons, List.sum_nil]
  have hfil : portfolio_results_weights [4999/5000, 1/10000, 1/10000] = [9998/100] := by
    unfold portfolio_results_weights
    rw [hadj, List.filter_cons, List.filter_cons, List.filter_cons, List.filter_nil]
    simp only [decide_eq_true_eq]
    rw [if_pos (by norm_num), if_neg (by norm_num), if_neg (by norm_num)]
  refine ⟨hfil, ?_, by norm_num⟩
  rw [hfil]
  norm_num [List.sum_cons, List.sum_nil]

/-! ### PortfolioOptimizer group constraints (src/full_app.py lines 784-802)

For each industry the code runs

  for industry in industries:
      industry_indices = [i for i, symbol in ... if symbol in industry_stocks]
      if industry_indices:
          constraints.append({'type': 'ineq',
              'fun': lambda x, idx=industry_indices:
                         industry_limits[industry] - np.sum(x[idx])})

and an analogous loop over the fixed list `['Large-Cap', 'Mid-Cap',
'Small-Cap']` with `cap_limits[cap_type]`.  The index list is captured by
value through the default argument `idx=...`, but the cap lookup reads the
loop variable (`industry` / `cap_type`), which Python binds late: when
`scipy.optimize.minimize` calls the constraint functions (line 822) the
loops have finished, so the variable holds the key of the LAST iterated
group.  `buildGroupConstraints` embeds this: each produced constraint sums
its own captured index list but reads the cap of the last group of the
iteration (`lastLoopKey`). -/

structure GroupSpec where
  key : String
  indices : List ℕ

def sumAt (w : List ℚ) (idx : List ℕ) : ℚ := (idx.map (fun i => w.getD i 0)).sum

def lastLoopKey (gs : List GroupSpec) : String := ((gs.map GroupSpec.key).getLast?).getD ""

def buildGroupConstraints (caps : String → ℚ) (gs : List GroupSpec) :
    List (List ℚ → ℚ) :=
  (gs.filter (fun g => !g.indices.isEmpty)).map
    (fun g => fun w => caps (lastLoopKey gs) - sumAt w g.indices)

/-- Market-cap bucket caps: Large-Cap may take up to 80%, every other
bucket up to 30%. -/
def capsEx : String → ℚ := fun k => if k = "Large-Cap" then 4/5 else 3/10

/-- The bucket loop's iteration order: Large-Cap (asset index 0) first,
Small-Cap (asset index 1) last. -/
def groupsEx : List GroupSpec := [⟨"Large-Cap", [0]⟩, ⟨"Small-Cap", [1]⟩]

/-- C1 fails on the code: with bucket groups Large-Cap (indices `[0]`,
cap 0.8) and Small-Cap (indices `[1]`, cap 0.3) and weight vector
`w = [0.5, 0.2]`, the constraint built for Large-Cap sums its own captured
index list but reads the cap through the late-bound loop variable, so it
returns `caps "Small-Cap" - w 0 = 0.3 - 0.5 = -0.2` (spuriously violated)
instead of the claimed `caps "Large-Cap" - w 0 = 0.8 - 0.5 = 0.3`. -/
theorem group_constraint_late_binding :
    (buildGroupConstraints capsEx groupsEx).length = 2
    ∧ ((buildGroupConstraints capsEx groupsEx).getD 0 (fun _ => 0)) [1/2, 1/5] = -(1/5)
    ∧ capsEx "Large-Cap" - sumAt [1/2, 1/5] [0] = 3/10
    ∧ (-(1/5) : ℚ) ≠ 3/10 := by
  have hkey : lastLoopKey groupsEx = "Small-Cap" := rfl
  have hcapS : capsEx "Small-Cap" = 3/10 := by
    unfold capsEx
    rw [if_neg (by decide)]
  have hcapL : capsEx "Large-Cap" = 4/5 := by
    unfold capsEx
    rw [if_pos rfl]
  have hsumAt : sumAt [1/2, 1/5] [0] = 1/2 := by
    show ((([(0 : ℕ)].map (fun i => ([1/2, 1/5] : List ℚ).getD i 0))).sum) = 1/2
    rw [List.map_cons, List.map_nil, List.getD_cons_zero, List.sum_cons, List.sum_nil]
    norm_num
  refine ⟨rfl, ?_, ?_, by norm_num⟩
  · have happly : ((buildGroupConstraints capsEx groupsEx).getD 0 (fun _ => 0)) [1/2, 1/5]
        = capsEx (lastLoopKey groupsEx) - sumAt [1/2, 1/5] [0] := rfl
    rw [happly, hkey, hcapS, hsumAt]
    norm_num
  · rw [hcapL, hsumAt]
    norm_num

/-! ### Pipeline session state and in-place stage effects
(src/full_app.py lines 128-133, 315-321 and 474-479)

Streamlit's `st.session_state` holds the table produced by each stage.
`handle_composite_score` takes `df = st.session_state.normalized_data` — a
reference to the stored DataFrame, not a copy — and runs
`df['Composite Score'] = calculate_composite_score(df, ...)` (line 317) and
`df['Rank'] = df['Composite Score'].rank(ascending=False)` (line 318),
which append two columns in place to the stored normalized table;
`df.sort_values(...)` (line 319) then produces a fresh sorted copy stored
as `ranked_data`.  `handle_returns_analysis` similarly runs
`selected_stocks['Symbol'] = selected_stocks.apply(get_stock_symbol, axis=1)`
(line 479) on `selected_stocks = st.session_state.selected_stocks`,
appending a Symbol column in place (the NSE code when present, else the
BSE code; a missing code cell is `none`).  Each handler is modelled as a
state transformer; a column assignment to an aliased DataFrame updates the
stored table.  Only the table-shaping part of `handle_returns_analysis`
(lines 476-479) is modelled here; the price fetching and covariance parts
are embedded separately above. -/

def lookupCol (r : List (String × ℚ)) (c : String) : ℚ :=
  ((r.find? (fun p => decide (p.1 = c))).map Prod.snd).getD 0

/-- `calculate_composite_score` (lines 128-133): divide each weight
percentage by 100 and take the dot product with the row's selected
columns. -/
def calculate_composite_score (cols : List String) (weights : String → ℚ)
    (r : List (String × ℚ)) : ℚ :=
  (cols.map (fun c => lookupCol r c * (weights c / 100))).sum

def addScoreRank (cols : List String) (weights : String → ℚ) (scores : List ℚ)
    (r : List (String × ℚ)) : List (String × ℚ) :=
  r ++ [("Composite Score", calculate_composite_score cols weights r),
        ("Rank", rankOf scores (calculate_composite_score cols weights r))]

structure SessionState where
  cleaned_data : List (List (String × ℚ))
  normalized_data : List (List (String × ℚ))
  ranked_data : List (List (String × ℚ))
  selected_stocks : List (List (String × Option String))

def scoreGeRel (a b : List (String × ℚ)) : Prop :=
  lookupCol b "Composite Score" ≤ lookupCol a "Composite Score"

instance : DecidableRel scoreGeRel :=
  fun a b => inferInstanceAs
    (Decidable (lookupCol b "Composite Score" ≤ lookupCol a "Composite Score"))

def handle_composite_score (cols : List String) (weights : String → ℚ)
    (s : SessionState) : SessionState :=
  let scores := s.normalized_data.map (calculate_composite_score cols weights)
  let df := s.normalized_data.map (addScoreRank cols weights scores)
  { s with normalized_data := df
           ranked_data := df.insertionSort scoreGeRel }

def get_stock_symbol (r : List (String × Option String)) : Option String :=
  match (r.find? (fun p => decide (p.1 = "NSE Code"))).bind Prod.snd with
  | some v => some v
  | none => (r.find? (fun p => decide (p.1 = "BSE Code"))).bind Prod.snd

def addSymbol (r : List (String × Option String)) : List (String × Option String) :=
  r ++ [("Symbol", get_stock_symbol r)]

def handle_returns_symbol_step (s : SessionState) : SessionState :=
  { s with selected_stocks := s.selected_stocks.map addSymbol }

/-- Session state before step 3: one normalized row with metric column
`"m"`, one selected row carrying an NSE code and a missing BSE code. -/
def stateEx : SessionState :=
  ⟨[], [[("m", 1)]], [], [[("NSE Code", some "AAA"), ("BSE Code", none)]]⟩

/-- C10 fails on the code: running the composite-score stage changes the
stored normalized table (it gains the `Composite Score` and `Rank`
columns), and running the symbol step of returns analysis changes the
stored selected-stocks table (it gains a `Symbol` column) — the
predecessor snapshots are mutated in place, not left unchanged. -/
theorem stage_mutation_counterexample :
    (handle_composite_score ["m"] (fun _ => 100) stateEx).normalized_data
        ≠ stateEx.normalized_data
    ∧ (handle_returns_symbol_step stateEx).selected_stocks ≠ stateEx.selected_stocks := by
  constructor
  · intro hcon
    have h3 : (((handle_composite_score ["m"] (fun _ => 100) stateEx).normalized_data.headD
          []).length)
        = ((stateEx.normalized_data.headD []).length) := by rw [hcon]
    have e1 : (((handle_composite_score ["m"] (fun _ => 100) stateEx).normalized_data.headD
          []).length) = 3 := rfl
    have e2 : ((stateEx.normalized_data.headD []).length) = 1 := rfl
    rw [e1, e2] at h3
    exact absurd h3 (by omega)
  · intro hcon
    have h3 : (((handle_returns_symbol_step stateEx).selected_stocks.headD []).length)
        = ((stateEx.selected_stocks.headD []).length) := by rw [hcon]
    have e1 : (((handle_returns_symbol_step stateEx).selected_stocks.headD []).length) = 3 := rfl
    have e2 : ((stateEx.selected_stocks.headD []).length) = 2 := rfl
    rw [e1, e2] at h3
    exact absurd h3 (by omega)

/-- C10 (amended): the composite-score stage mutates the stored normalized
table in place, appending exactly the `Composite Score` and `Rank` columns
while leaving every pre-existing cell of every row unchanged, and the
returns-analysis stage mutates the stored selected-stocks table in place,
appending exactly a `Symbol` column; each stage leaves the *other* stored
stage outputs unchanged (the composite stage does not touch the cleaned or
selected tables, the symbol step does not touch the cleaned, normalized or
ranked tables). -/
theorem stage_mutation_amended (s : SessionState) (cols : List String)
    (weights : String → ℚ) :
    (handle_composite_score cols weights s).normalized_data
        = s.normalized_data.map
            (addScoreRank cols weights
              (s.normalized_data.map (calculate_composite_score cols weights)))
    ∧ (∀ (r : List (String × ℚ)) (scores : List ℚ),
        (addScoreRank cols weights scores r).take r.length = r)
    ∧ (∀ (r : List (String × ℚ)) (scores : List ℚ),
        (addScoreRank cols weights scores r).map Prod.fst
          = r.map Prod.fst ++ ["Composite Score", "Rank"])
    ∧ (handle_composite_score cols weights s).cleaned_data = s.cleaned_data
    ∧ (handle_composite_score cols weights s).selected_stocks = s.selected_stocks
    ∧ (handle_returns_symbol_step s).selected_stocks = s.selected_stocks.map addSymbol
    ∧ (∀ r : List (String × Option String), (addSymbol r).take r.length = r)
    ∧ (∀ r : List (String × Option String),
        (addSymbol r).map Prod.fst = r.map Prod.fst ++ ["Symbol"])
    ∧ (handle_returns_symbol_step s).normalized_data = s.normalized_data
    ∧ (handle_returns_symbol_step s).cleaned_data = s.cleaned_data := by
  refine ⟨rfl, ?_, ?_, rfl, rfl, rfl, ?_, ?_, rfl, rfl⟩
  · intro r scores
    exact List.take_left r _
  · intro r scores
    show (r ++ _).map Prod.fst = r.map Prod.fst ++ ["Composite Score", "Rank"]
    rw [List.map_append]
    rfl
  · intro r
    exact List.take_left r _
  · intro r
    show (r ++ _).map Prod.fst = r.map Prod.fst ++ ["Symbol"]
    rw [List.map_append]
    rfl
